import Mathlib

/-
Verification of the content-dump parsing and contact-aggregation engine of
the android-data-reader repository (src/src/core/contacts_reader.py), as a
shallow embedding in Lean.  Python strings are modelled as Lean `String`
(lists of characters); Python dicts that the parser produces are modelled
as association lists with overwrite-on-repeat semantics; the mutable
`contact_map` of `get_all_contacts` is modelled as an insertion-ordered
list of `Contact` values keyed by the `name` field.
-/

set_option maxRecDepth 4000

namespace ContactsReader

/-- Whitespace test used by Python's str.strip and no-argument str.split
(str.isspace): ASCII whitespace, the C1 separators, and the common
Unicode space code points. -/
def pyIsSpace (c : Char) : Bool :=
  let n := c.toNat
  (0x09 ≤ n && n ≤ 0x0D) || n == 0x20 || (0x1C ≤ n && n ≤ 0x1F) ||
  n == 0x85 || n == 0xA0 || n == 0x1680 || (0x2000 ≤ n && n ≤ 0x200A) ||
  n == 0x2028 || n == 0x2029 || n == 0x202F || n == 0x205F || n == 0x3000

/-- Digit test of Python's str.isdigit: true for characters with the Unicode
decimal-digit or digit property, not only for ASCII 0-9.  Modelled over the
decimal-digit ranges of the Basic Multilingual Plane together with the
superscript, subscript, fullwidth and circled digit characters. -/
def pyIsDigit (c : Char) : Bool :=
  let n := c.toNat
  (0x30 ≤ n && n ≤ 0x39) ||
  n == 0xB2 || n == 0xB3 || n == 0xB9 ||
  (0x660 ≤ n && n ≤ 0x669) || (0x6F0 ≤ n && n ≤ 0x6F9) ||
  (0x7C0 ≤ n && n ≤ 0x7C9) || (0x966 ≤ n && n ≤ 0x96F) ||
  (0x9E6 ≤ n && n ≤ 0x9EF) || (0xA66 ≤ n && n ≤ 0xA6F) ||
  (0xAE6 ≤ n && n ≤ 0xAEF) || (0xB66 ≤ n && n ≤ 0xB6F) ||
  (0xBE6 ≤ n && n ≤ 0xBEF) || (0xC66 ≤ n && n ≤ 0xC6F) ||
  (0xCE6 ≤ n && n ≤ 0xCEF) || (0xD66 ≤ n && n ≤ 0xD6F) ||
  (0xE50 ≤ n && n ≤ 0xE59) || (0xED0 ≤ n && n ≤ 0xED9) ||
  (0xF20 ≤ n && n ≤ 0xF29) || (0x1040 ≤ n && n ≤ 0x1049) ||
  (0x1090 ≤ n && n ≤ 0x1099) || (0x17E0 ≤ n && n ≤ 0x17E9) ||
  (0x1810 ≤ n && n ≤ 0x1819) || (0x1946 ≤ n && n ≤ 0x194F) ||
  (0x19D0 ≤ n && n ≤ 0x19D9) || n == 0x2070 ||
  (0x2074 ≤ n && n ≤ 0x2079) || (0x2080 ≤ n && n ≤ 0x2089) ||
  (0x2460 ≤ n && n ≤ 0x2468) || (0x2474 ≤ n && n ≤ 0x247C) ||
  (0x2488 ≤ n && n ≤ 0x2490) || n == 0x24EA ||
  (0x24F5 ≤ n && n ≤ 0x24FD) || n == 0x24FF ||
  (0x2776 ≤ n && n ≤ 0x277E) || (0x2780 ≤ n && n ≤ 0x2788) ||
  (0x278A ≤ n && n ≤ 0x2792) || (0xA620 ≤ n && n ≤ 0xA629) ||
  (0xA8D0 ≤ n && n ≤ 0xA8D9) || (0xA900 ≤ n && n ≤ 0xA909) ||
  (0xA9D0 ≤ n && n ≤ 0xA9D9) || (0xAA50 ≤ n && n ≤ 0xAA59) ||
  (0xABF0 ≤ n && n ≤ 0xABF9) || (0xFF10 ≤ n && n ≤ 0xFF19)

/-- Python str.strip on a character list: drop whitespace from both ends. -/
def pyStripL (l : List Char) : List Char :=
  ((l.dropWhile pyIsSpace).reverse.dropWhile pyIsSpace).reverse

/-- Python str.strip. -/
def pyStrip (s : String) : String :=
  String.mk (pyStripL s.data)

/-- Python substring membership test (the `in` operator on strings),
on character lists: the needle occurs contiguously in the haystack. -/
def infixCheck (needle : List Char) : List Char → Bool
  | [] => needle.isEmpty
  | c :: rest => needle.isPrefixOf (c :: rest) || infixCheck needle rest

/-- Python substring membership: `needle in hay`. -/
def pyInStr (needle hay : String) : Bool :=
  infixCheck needle.data hay.data

/-- Python str.startswith. -/
def pyStartsWith (s pre : String) : Bool :=
  pre.data.isPrefixOf s.data

/-- Python str.endswith (used only to state the specification's selection
rule for claim C1). -/
def pyEndsWith (s suf : String) : Bool :=
  suf.data.reverse.isPrefixOf s.data.reverse

/-- Python split(", "): split on each non-overlapping occurrence of the
two-character separator, keeping empty pieces. -/
def splitCommaSpace : List Char → List (List Char)
  | [] => [[]]
  | ',' :: ' ' :: rest => [] :: splitCommaSpace rest
  | c :: rest =>
    match splitCommaSpace rest with
    | [] => [[c]]
    | h :: t => (c :: h) :: t

/-- Python split("Row:"): split on each occurrence of the four-character
row marker. -/
def splitRowMarker : List Char → List (List Char)
  | 'R' :: 'o' :: 'w' :: ':' :: rest => [] :: splitRowMarker rest
  | [] => [[]]
  | c :: rest =>
    match splitRowMarker rest with
    | [] => [[c]]
    | h :: t => (c :: h) :: t

/-- Python split("\n"). -/
def splitNewline : List Char → List (List Char)
  | [] => [[]]
  | '\n' :: rest => [] :: splitNewline rest
  | c :: rest =>
    match splitNewline rest with
    | [] => [[c]]
    | h :: t => (c :: h) :: t

/-- Python split("=", 1) on a part already known to contain an equals sign:
the text before the first equals sign and the text after it. -/
def splitFirstEq : List Char → List Char × List Char
  | [] => ([], [])
  | c :: rest =>
    if c = '=' then ([], rest)
    else
      let p := splitFirstEq rest
      (c :: p.1, p.2)

/-- Accumulator pass of Python's no-argument str.split: split on runs of
whitespace, discarding empty pieces.  `cur` holds the current word in
reverse. -/
def pySplitWsAux : List Char → List Char → List (List Char)
  | [], cur => if cur.isEmpty then [] else [cur.reverse]
  | c :: rest, cur =>
    if pyIsSpace c then
      if cur.isEmpty then pySplitWsAux rest [] else cur.reverse :: pySplitWsAux rest []
    else pySplitWsAux rest (c :: cur)

/-- Python no-argument str.split. -/
def pySplitWs (s : String) : List String :=
  (pySplitWsAux s.data []).map String.mk

/-- A parsed row of the content dump: an ordered mapping of column label to
column value (a Python dict in insertion order). -/
abbrev RawRow := List (String × String)

/-- Python dict assignment `result[key] = value`: overwrite the value in
place if the key is already present, otherwise append the pair. -/
def dictInsert (m : RawRow) (k v : String) : RawRow :=
  if m.any (fun kv => kv.1 = k) then
    m.map (fun kv => if kv.1 = k then (k, v) else kv)
  else
    m ++ [(k, v)]

/-- Python `row.get(k, "")` (also `row[k]` at call sites that first test
membership): the value stored for `k`, or the empty string. -/
def rowGet (row : RawRow) (k : String) : String :=
  match row.find? (fun kv => kv.1 = k) with
  | some kv => kv.2
  | none => ""

/-- Python `k in row` for a dict. -/
def rowHasKey (row : RawRow) (k : String) : Bool :=
  row.any (fun kv => kv.1 = k)

/-- The literal string NULL is canonicalized to the empty value
(`if value == 'NULL': value = ''` in _parse_row_data). -/
def nullToEmpty (v : String) : String :=
  if v = "NULL" then "" else v

/-- The test of _parse_row_data, line 184-187, deciding that a token opens a
fresh key=value pair and so ends the absorption of a comma-containing value:
the token contains an equals sign, does not start with one, does not end
with one, and its first equals sign is at an interior position. -/
def isNewKeyValue (p : List Char) : Bool :=
  p.contains '=' &&
  !(decide (p.headD ' ' = '=')) &&
  !(decide (p.getLastD ' ' = '=')) &&
  (let eqIdx := p.findIdx (fun c => c = '=')
   decide (0 < eqIdx) && decide (eqIdx < p.length - 1))

/-- `' , '.join(value_parts).strip()` followed by the NULL canonicalization,
finishing an absorbed multi-part value. -/
def finishValue (vps : List String) : String :=
  nullToEmpty (pyStrip (String.intercalate ", " vps))

/-- Number of equals signs in a token (Python `part.count('=')`). -/
def countEq (p : String) : Nat :=
  p.data.count '='

/-- Key of a token containing an equals sign: `part.split('=', 1)[0].strip()`. -/
def tokenKey (p : String) : String :=
  pyStrip (String.mk (splitFirstEq p.data).1)

/-- Raw (unstripped) value text after the first equals sign:
`part.split('=', 1)[1]`. -/
def tokenValue (p : String) : String :=
  String.mk (splitFirstEq p.data).2

/-- The token walk of _parse_row_data (lines 157-199).  The first list is
the remaining tokens.  The `Option` argument is the control state of the
nested loops: `none` is the outer while loop; `some (key, vps)` is the
inner absorption loop for a key whose value contained a comma, with `vps`
the value parts collected so far.  On a token that opens a fresh key=value
pair the absorbed value is recorded and the outer-loop treatment of that
token is applied directly (the code sets `i = j - 1` and re-enters the
outer loop at the stop token). -/
def parsePartsGo : List String → Option (String × List String) → RawRow → RawRow
  | [], none, acc => acc
  | [], some (key, vps), acc => dictInsert acc key (finishValue vps)
  | p :: rest, none, acc =>
    if countEq p = 0 then parsePartsGo rest none acc
    else if countEq p = 1 then
      parsePartsGo rest none (dictInsert acc (tokenKey p) (nullToEmpty (pyStrip (tokenValue p))))
    else
      parsePartsGo rest (some (tokenKey p, [tokenValue p])) acc
  | p :: rest, some (key, vps), acc =>
    if isNewKeyValue p.data then
      let acc' := dictInsert acc key (finishValue vps)
      if countEq p = 1 then
        parsePartsGo rest none (dictInsert acc' (tokenKey p) (nullToEmpty (pyStrip (tokenValue p))))
      else
        parsePartsGo rest (some (tokenKey p, [tokenValue p])) acc'
    else
      parsePartsGo rest (some (key, vps ++ [p])) acc

/-- _parse_row_data: split the row content on the two-character sequence
`", "` and walk the tokens. -/
def parseRowData (rowContent : String) : RawRow :=
  parsePartsGo ((splitCommaSpace rowContent.data).map String.mk) none []

/-- Treatment of one `Row:` line in _parse_query_result:
`line.split('Row:')[1].strip()` fed to _parse_row_data. -/
def parseRowLine (line : String) : RawRow :=
  parseRowData (pyStrip (String.mk ((splitRowMarker line.data).getD 1 [])))

/-- _parse_query_result: empty or whitespace-only input yields no rows;
otherwise the stripped input is split into lines and every line that starts
with `Row:` is parsed; all other lines are ignored. -/
def parseQueryResult (result : String) : List RawRow :=
  if result = "" || pyStrip result = "" then []
  else
    let lines := (splitNewline (pyStrip result).data).map String.mk
    (lines.filter (fun line => pyStartsWith line "Row:")).map parseRowLine

/-- Tail of _run_query (lines 92-96): a failed query or an empty raw result
is treated as an empty scan; otherwise the raw text is parsed. -/
def runQueryParsed (success : Bool) (result : String) : List RawRow :=
  if !success || result = "" then [] else parseQueryResult result

/-- A character of the CJK Unified Ideographs block, the range of the regex
`[一-鿿]` in is_chinese. -/
def isCJKChar (c : Char) : Bool :=
  0x4e00 ≤ c.toNat && c.toNat ≤ 0x9fff

/-- is_chinese: the value is split on whitespace and classified as Chinese
when any word contains a CJK ideograph. -/
def isChinese (text : String) : Bool :=
  (pySplitWs text).any (fun w => w.data.any isCJKChar)

/-- The slice words[1::2]: the elements at odd zero-based indices. -/
def sliceOdd {α : Type} : List α → List α
  | [] => []
  | [_] => []
  | _ :: b :: rest => b :: sliceOdd rest

/-- extract_even_positions: split on whitespace, keep the words at odd
zero-based indices; join with a single space when exactly two words were
selected, otherwise concatenate with no separator. -/
def extractEvenPositions (text : String) : String :=
  let words := pySplitWs text
  let selected := sliceOdd words
  if selected.length = 2 then " ".intercalate selected
  else String.join selected

/-- Value transform inside process_value: a Chinese-classified value goes
through the even-position extraction, any other value is returned
unchanged. -/
def decodeName (v : String) : String :=
  if isChinese v then extractEvenPositions v else v

/-- process_value: read the column and decode it. -/
def processValue (row : RawRow) (key : String) : String :=
  decodeName (rowGet row key)

/-- The name-selection loop of get_all_contacts (lines 323-328): try the
keys sort_key, display_name, display_name_alt in order; the first key
present with a non-empty value is decoded with process_value, and the loop
breaks there even if the decoded name is empty. -/
def nameLoop (row : RawRow) : List String → String
  | [] => ""
  | k :: ks =>
    if rowHasKey row k && rowGet row k ≠ "" then processValue row k
    else nameLoop row ks

/-- Resolved display name of a data row. -/
def resolveName (row : RawRow) : String :=
  nameLoop row ["sort_key", "display_name", "display_name_alt"]

/-- _normalize_phone: the empty string stays empty; otherwise every
character failing Python's str.isdigit is removed. -/
def normalizePhone (phone : String) : String :=
  if phone = "" then "" else String.mk (phone.data.filter pyIsDigit)

/-- The Contact entity under aggregation. -/
structure Contact where
  name : String
  phone : List String
  email : List String
  group : String
  notes : String
deriving Repr, DecidableEq

/-- The group_id to group_name mapping built from the groups table. -/
abbrev GroupMap := List (String × String)

/-- `group_map.get(group_id, '')`. -/
def groupGet (gm : GroupMap) (gid : String) : String :=
  match gm.find? (fun kv => kv.1 = gid) with
  | some kv => kv.2
  | none => ""

/-- Construction of the group map (lines 298-305): rows of the groups table
contribute an entry when both the _id and the title column are non-empty. -/
def buildGroupMap (rows : List RawRow) : GroupMap :=
  rows.foldl
    (fun gm row =>
      let gid := rowGet row "_id"
      let gname := rowGet row "title"
      if gid ≠ "" && gname ≠ "" then dictInsert gm gid gname else gm)
    []

def phoneMime : String := "vnd.android.cursor.item/phone_v2"
def emailMime : String := "vnd.android.cursor.item/email_v2"
def groupMime : String := "vnd.android.cursor.item/group_membership"
def noteMime : String := "vnd.android.cursor.item/note"

/-- The mimetype dispatch of get_all_contacts (lines 342-366), mutating one
Contact with the primary value data1 of one row. -/
def applyKind (gm : GroupMap) (mimetype data1 : String) (c : Contact) : Contact :=
  if mimetype = phoneMime then
    let normalized := normalizePhone data1
    if normalized ≠ "" ∧ normalized ∉ c.phone then
      { c with phone := c.phone ++ [normalized] }
    else c
  else if mimetype = emailMime then
    if data1 ∉ c.email then { c with email := c.email ++ [data1] } else c
  else if mimetype = groupMime then
    let groupName := groupGet gm data1
    if groupName ≠ "" ∧ pyInStr groupName c.group = false then
      if c.group ≠ "" then { c with group := c.group ++ ", " ++ groupName }
      else { c with group := groupName }
    else c
  else if mimetype = noteMime then
    if c.notes ≠ "" then
      if pyInStr data1 c.notes = false then
        { c with notes := c.notes ++ " | " ++ data1 }
      else c
    else { c with notes := data1 }
  else c

/-- One iteration of the row loop of get_all_contacts (lines 317-366): read
mimetype and data1, skip the row when data1 is empty, resolve the name,
skip the row when no name was resolved, then update the existing contact of
that name in place or append a fresh one. -/
def processRow (gm : GroupMap) (cmap : List Contact) (row : RawRow) : List Contact :=
  let mimetype := rowGet row "mimetype"
  let data1 := rowGet row "data1"
  if data1 = "" then cmap
  else
    let name := resolveName row
    if name = "" then cmap
    else if cmap.any (fun c => c.name = name) then
      cmap.map (fun c => if c.name = name then applyKind gm mimetype data1 c else c)
    else
      cmap ++ [applyKind gm mimetype data1 (Contact.mk name [] [] "" "")]

/-- The aggregation core of get_all_contacts: fold the data-table rows into
the insertion-ordered contact map, with a fixed group map. -/
def getAllContacts (gm : GroupMap) (rows : List RawRow) : List Contact :=
  rows.foldl (processRow gm) []

/-- Phones of the contact stored under a given name, or the empty list when
no contact of that name exists. -/
def phonesOf (cmap : List Contact) (n : String) : List String :=
  match cmap.find? (fun c => c.name = n) with
  | some c => c.phone
  | none => []

/-- Emails of the contact stored under a given name. -/
def emailsOf (cmap : List Contact) (n : String) : List String :=
  match cmap.find? (fun c => c.name = n) with
  | some c => c.email
  | none => []

/-- Notes of the contact stored under a given name. -/
def notesOf (cmap : List Contact) (n : String) : String :=
  match cmap.find? (fun c => c.name = n) with
  | some c => c.notes
  | none => ""

/-- Name selection as worded by the specification and claim C1: first any
column whose label contains the substring sort_key; else any column whose
label ends with display_name_alt; else empty.  Stated for comparison with
resolveName, the selection the code performs. -/
def specResolveName (row : RawRow) : String :=
  match row.find? (fun kv => pyInStr "sort_key" kv.1) with
  | some kv => processValue row kv.1
  | none =>
    match row.find? (fun kv => pyEndsWith kv.1 "display_name_alt") with
    | some kv => processValue row kv.1
    | none => ""

/-- Stop condition as worded by claim C5: the token contains an equals sign
with non-empty content on both sides of it.  Stated for comparison with
isNewKeyValue, the condition the code tests. -/
def specIsNewKeyValue (p : List Char) : Bool :=
  p.enum.any (fun ic => ic.2 == '=' && decide (0 < ic.1) && decide (ic.1 + 1 < p.length))

/-- The corrected stop condition: the token contains an equals sign and
neither starts nor ends with one. -/
def amendedStop (p : List Char) : Bool :=
  p.contains '=' &&
  !(decide (p.headD ' ' = '=')) &&
  !(decide (p.getLastD ' ' = '='))

/-- ASCII digit test, as worded by claim C7 (keep only the characters 0-9). -/
def specIsAsciiDigit (c : Char) : Bool :=
  0x30 ≤ c.toNat && c.toNat ≤ 0x39

/-- Phone normalization as worded by claim C7: remove every character that
is not an ASCII digit.  Stated for comparison with normalizePhone. -/
def specNormalizePhone (s : String) : String :=
  String.mk (s.data.filter specIsAsciiDigit)

/-- Concatenation of note values joined by the separator, as worded by
claim C4 (the expected notes field after several note rows). -/
def specNotesJoin : List String → String
  | [] => ""
  | v :: rest => rest.foldl (fun a w => a ++ " | " ++ w) v

/-- A note-kind data row carrying a display name and one note value. -/
def mkNoteRow (n v : String) : RawRow :=
  [("display_name", n), ("mimetype", noteMime), ("data1", v)]

/-- The accumulator view of the notes field across a sequence of note
values, mirroring the note branch of the dispatch. -/
def notesJoinAcc : String → List String → String
  | acc, [] => acc
  | acc, v :: rest => notesJoinAcc (if acc = "" then v else acc ++ " | " ++ v) rest

/-- Freshness of a sequence of note values over a starting notes string:
each value is non-empty and is not a substring of the notes accumulated
before it (the situation in which the code appends every value). -/
def freshNotes : String → List String → Bool
  | _, [] => true
  | acc, v :: rest =>
    (v ≠ "" : Bool) && (decide (acc = "") || !(pyInStr v acc)) &&
      freshNotes (if acc = "" then v else acc ++ " | " ++ v) rest

/-- A data row whose only name-bearing column is display_name. -/
def bobRow : RawRow :=
  [("display_name", "Bob"), ("mimetype", phoneMime), ("data1", "123")]

/-- A phone-kind data row with no name-bearing column at all. -/
def noNameRow : RawRow :=
  [("mimetype", phoneMime), ("data1", "123")]

/-- A phone-kind data row whose primary value contains no digit. -/
def noDigitRow : RawRow :=
  [("display_name", "Bob"), ("mimetype", phoneMime), ("data1", "abc")]

/-- A row contributes a contact of the given name exactly when its primary
value is non-empty and its resolved name is that (non-empty) name. -/
def createsName (row : RawRow) (n : String) : Prop :=
  rowGet row "data1" ≠ "" ∧ resolveName row = n ∧ n ≠ ""

/-- A row contributes a phone entry to the contact of the given name. -/
def phoneContrib (row : RawRow) (n p : String) : Prop :=
  createsName row n ∧ rowGet row "mimetype" = phoneMime ∧
    normalizePhone (rowGet row "data1") = p ∧ p ≠ ""

/-- A row contributes an email entry to the contact of the given name. -/
def emailContrib (row : RawRow) (n e : String) : Prop :=
  createsName row n ∧ rowGet row "mimetype" = emailMime ∧
    rowGet row "data1" = e

theorem applyKind_name (gm : GroupMap) (mt d : String) (c : Contact) :
    (applyKind gm mt d c).name = c.name := by
  simp only [applyKind]
  split_ifs <;> rfl

theorem applyKind_phone_eq (gm : GroupMap) {mt : String} (d : String) (c : Contact)
    (hmt : mt ≠ phoneMime) : (applyKind gm mt d c).phone = c.phone := by
  simp only [applyKind]
  split_ifs <;> first | rfl | exact absurd ‹mt = phoneMime› hmt

theorem applyKind_email_eq (gm : GroupMap) {mt : String} (d : String) (c : Contact)
    (hmt : mt ≠ emailMime) : (applyKind gm mt d c).email = c.email := by
  simp only [applyKind]
  split_ifs <;> first | rfl | exact absurd ‹mt = emailMime› hmt

theorem mem_phone_applyKind (gm : GroupMap) (mt d : String) (c : Contact) (p : String) :
    p ∈ (applyKind gm mt d c).phone ↔
      p ∈ c.phone ∨ (mt = phoneMime ∧ p = normalizePhone d ∧ normalizePhone d ≠ "") := by
  by_cases hmt : mt = phoneMime
  · simp only [applyKind]
    rw [if_pos hmt]
    by_cases hcond : normalizePhone d ≠ "" ∧ normalizePhone d ∉ c.phone
    · rw [if_pos hcond]
      show p ∈ c.phone ++ [normalizePhone d] ↔ _
      simp only [List.mem_append, List.mem_singleton]
      constructor
      · rintro (h | h)
        · exact Or.inl h
        · exact Or.inr ⟨hmt, h, hcond.1⟩
      · rintro (h | ⟨-, h, -⟩)
        · exact Or.inl h
        · exact Or.inr h
    · rw [if_neg hcond]
      push_neg at hcond
      constructor
      · exact Or.inl
      · rintro (h | ⟨-, hp, hne⟩)
        · exact h
        · exact hp ▸ hcond hne
  · rw [applyKind_phone_eq gm d c hmt]
    constructor
    · exact Or.inl
    · rintro (h | ⟨h, -, -⟩)
      · exact h
      · exact absurd h hmt

theorem mem_email_applyKind (gm : GroupMap) (mt d : String) (c : Contact) (e : String) :
    e ∈ (applyKind gm mt d c).email ↔
      e ∈ c.email ∨ (mt = emailMime ∧ e = d) := by
  by_cases hmt : mt = emailMime
  · have hne : mt ≠ phoneMime := by rw [hmt]; decide
    simp only [applyKind]
    rw [if_neg hne, if_pos hmt]
    by_cases hd : d ∉ c.email
    · rw [if_pos hd]
      show e ∈ c.email ++ [d] ↔ _
      simp only [List.mem_append, List.mem_singleton]
      constructor
      · rintro (h | h)
        · exact Or.inl h
        · exact Or.inr ⟨hmt, h⟩
      · rintro (h | ⟨-, h⟩)
        · exact Or.inl h
        · exact Or.inr h
    · rw [if_neg hd]
      push_neg at hd
      constructor
      · exact Or.inl
      · rintro (h | ⟨-, he⟩)
        · exact h
        · exact he ▸ hd
  · rw [applyKind_email_eq gm d c hmt]
    constructor
    · exact Or.inl
    · rintro (h | ⟨h, -⟩)
      · exact h
      · exact absurd h hmt

theorem applyKind_notes_note (gm : GroupMap) (d : String) (c : Contact) :
    (applyKind gm noteMime d c).notes =
      if c.notes = "" then d
      else if pyInStr d c.notes = false then c.notes ++ " | " ++ d
      else c.notes := by
  have h1 : noteMime ≠ phoneMime := by decide
  have h2 : noteMime ≠ emailMime := by decide
  have h3 : noteMime ≠ groupMime := by decide
  simp only [applyKind]
  rw [if_neg h1, if_neg h2, if_neg h3, if_pos trivial]
  by_cases hn : c.notes = ""
  · rw [if_neg (by simp [hn] : ¬ c.notes ≠ ""), if_pos hn]
  · rw [if_pos hn, if_neg hn]
    by_cases hs : pyInStr d c.notes = false
    · rw [if_pos hs, if_pos hs]
    · rw [if_neg hs, if_neg hs]

theorem applyKind_phone_noDigits (gm : GroupMap) {d : String} (c : Contact)
    (hz : normalizePhone d = "") : applyKind gm phoneMime d c = c := by
  simp only [applyKind]
  rw [if_pos trivial, if_neg (by simp [hz])]

theorem find?_name_map {f : Contact → Contact} (hf : ∀ c, (f c).name = c.name)
    (l : List Contact) (n : String) :
    (l.map f).find? (fun c => c.name = n) = (l.find? (fun c => c.name = n)).map f := by
  induction l with
  | nil => rfl
  | cons c t ih =>
    by_cases hc : c.name = n
    · rw [List.map_cons,
        List.find?_cons_of_pos _ (by simpa [hf c] using hc),
        List.find?_cons_of_pos _ (by simpa using hc)]
      rfl
    · rw [List.map_cons,
        List.find?_cons_of_neg _ (by simpa [hf c] using hc),
        List.find?_cons_of_neg _ (by simpa using hc), ih]

theorem findName_append_of_none {l₁ l₂ : List Contact} {p : Contact → Bool}
    (h : l₁.find? p = none) : (l₁ ++ l₂).find? p = l₂.find? p := by
  induction l₁ with
  | nil => rfl
  | cons c t ih =>
    rw [List.find?] at h
    cases hp : p c with
    | true => rw [hp] at h; exact absurd h (by simp)
    | false =>
      rw [hp] at h
      rw [List.cons_append, List.find?_cons_of_neg _ (by simp [hp])]
      exact ih h

theorem findName_append_of_some {l₁ l₂ : List Contact} {p : Contact → Bool} {c : Contact}
    (h : l₁.find? p = some c) : (l₁ ++ l₂).find? p = some c := by
  induction l₁ with
  | nil => simp at h
  | cons a t ih =>
    rw [List.find?] at h
    cases hp : p a with
    | true =>
      rw [hp] at h
      rw [List.cons_append, List.find?_cons_of_pos _ hp]
      exact h
    | false =>
      rw [hp] at h
      rw [List.cons_append, List.find?_cons_of_neg _ (by simp [hp])]
      exact ih h

/-- Names are never changed by an update of the contact map, so lookup by
name commutes with the in-place update of processRow. -/
theorem phonesOf_map_update (gm : GroupMap) (mt d nm : String) (cmap : List Contact)
    (n : String) :
    phonesOf (cmap.map (fun c => if c.name = nm then applyKind gm mt d c else c)) n =
      (match cmap.find? (fun c => c.name = n) with
       | some c => if c.name = nm then (applyKind gm mt d c).phone else c.phone
       | none => []) := by
  unfold phonesOf
  rw [find?_name_map (fun c => by by_cases h : c.name = nm <;> simp [h, applyKind_name])]
  cases cmap.find? (fun c => c.name = n) with
  | none => rfl
  | some c => by_cases h : c.name = nm <;> simp [h]

theorem any_name_iff (cmap : List Contact) (n : String) :
    cmap.any (fun c => c.name = n) = true ↔ ∃ c ∈ cmap, c.name = n := by
  simp [List.any_eq_true]

theorem emailsOf_map_update (gm : GroupMap) (mt d nm : String) (cmap : List Contact)
    (n : String) :
    emailsOf (cmap.map (fun c => if c.name = nm then applyKind gm mt d c else c)) n =
      (match cmap.find? (fun c => c.name = n) with
       | some c => if c.name = nm then (applyKind gm mt d c).email else c.email
       | none => []) := by
  unfold emailsOf
  rw [find?_name_map (fun c => by by_cases h : c.name = nm <;> simp [h, applyKind_name])]
  cases cmap.find? (fun c => c.name = n) with
  | none => rfl
  | some c => by_cases h : c.name = nm <;> simp [h]

theorem phonesOf_processRow (gm : GroupMap) (cmap : List Contact) (row : RawRow)
    (n p : String) :
    p ∈ phonesOf (processRow gm cmap row) n ↔
      p ∈ phonesOf cmap n ∨ phoneContrib row n p := by
  by_cases hd : rowGet row "data1" = ""
  · simp only [processRow]
    rw [if_pos hd]
    have hc : ¬ phoneContrib row n p := fun h => h.1.1 hd
    tauto
  · by_cases hn : resolveName row = ""
    · simp only [processRow]
      rw [if_neg hd, if_pos hn]
      have hc : ¬ phoneContrib row n p := by
        rintro ⟨⟨-, hr, hne⟩, -⟩
        exact hne (hr ▸ hn)
      tauto
    · simp only [processRow]
      rw [if_neg hd, if_neg hn]
      by_cases hex : cmap.any (fun c => c.name = resolveName row) = true
      · rw [if_pos hex, phonesOf_map_update]
        cases hfind : cmap.find? (fun c => c.name = n) with
        | none =>
          have hcontra : ¬ phoneContrib row n p := by
            rintro ⟨⟨-, hr, -⟩, -⟩
            obtain ⟨c, hcm, hcn⟩ := (any_name_iff cmap (resolveName row)).mp hex
            have hnone := List.find?_eq_none.mp hfind c hcm
            exact hnone (by simp [hcn, hr])
          simp only [phonesOf, hfind]
          simp [hcontra]
        | some c =>
          have hcn : c.name = n := by
            have hpc := List.find?_some hfind
            simpa using hpc
          have hph : phonesOf cmap n = c.phone := by simp [phonesOf, hfind]
          simp only [hfind]
          by_cases heq : c.name = resolveName row
          · rw [if_pos heq, mem_phone_applyKind, hph]
            constructor
            · rintro (h | ⟨hm, hp, hz⟩)
              · exact Or.inl h
              · exact Or.inr ⟨⟨hd, heq.symm.trans hcn, fun he => hn ((heq.symm.trans hcn).trans he)⟩,
                  hm, hp.symm, hp ▸ hz⟩
            · rintro (h | ⟨⟨-, -, -⟩, hm, hp, hpne⟩)
              · exact Or.inl h
              · exact Or.inr ⟨hm, hp.symm, hp ▸ hpne⟩
          · rw [if_neg heq, hph]
            have hcontra : ¬ phoneContrib row n p := by
              rintro ⟨⟨-, hrn, -⟩, -⟩
              exact heq (hcn.trans hrn.symm)
            tauto
      · rw [if_neg hex]
        have hall : ∀ c ∈ cmap, c.name ≠ resolveName row := by
          intro c hcm
          simp [List.any_eq_true] at hex
          exact hex c hcm
        by_cases hnr : n = resolveName row
        · have hnone : cmap.find? (fun c => c.name = n) = none := by
            apply List.find?_eq_none.mpr
            intro c hcm
            simp [hnr, hall c hcm]
          have hname : (applyKind gm (rowGet row "mimetype") (rowGet row "data1")
              (Contact.mk (resolveName row) [] [] "" "")).name = resolveName row := by
            rw [applyKind_name]
          unfold phonesOf
          rw [findName_append_of_none hnone, hnone,
            List.find?_cons_of_pos _ (by simp [hname, hnr])]
          rw [mem_phone_applyKind]
          constructor
          · rintro (h | ⟨hm, hp, hz⟩)
            · simp at h
            · exact Or.inr ⟨⟨hd, hnr.symm, fun he => hn (hnr ▸ he)⟩, hm, hp.symm, hp ▸ hz⟩
          · rintro (h | ⟨⟨-, -, -⟩, hm, hp, hpne⟩)
            · simp at h
            · exact Or.inr ⟨hm, hp.symm, hp ▸ hpne⟩
        · have hcontra : ¬ phoneContrib row n p := by
            rintro ⟨⟨-, hrn, -⟩, -⟩
            exact hnr hrn.symm
          have hname : (applyKind gm (rowGet row "mimetype") (rowGet row "data1")
              (Contact.mk (resolveName row) [] [] "" "")).name = resolveName row := by
            rw [applyKind_name]
          unfold phonesOf
          cases hfind : cmap.find? (fun c => c.name = n) with
          | none =>
            rw [findName_append_of_none hfind,
              List.find?_cons_of_neg _ (by simp [hname]; exact fun h => hnr h.symm)]
            simp [hcontra]
          | some c =>
            rw [findName_append_of_some hfind]
            simp [hcontra]

theorem emailsOf_processRow (gm : GroupMap) (cmap : List Contact) (row : RawRow)
    (n e : String) :
    e ∈ emailsOf (processRow gm cmap row) n ↔
      e ∈ emailsOf cmap n ∨ emailContrib row n e := by
  by_cases hd : rowGet row "data1" = ""
  · simp only [processRow]
    rw [if_pos hd]
    have hc : ¬ emailContrib row n e := fun h => h.1.1 hd
    tauto
  · by_cases hn : resolveName row = ""
    · simp only [processRow]
      rw [if_neg hd, if_pos hn]
      have hc : ¬ emailContrib row n e := by
        rintro ⟨⟨-, hr, hne⟩, -⟩
        exact hne (hr ▸ hn)
      tauto
    · simp only [processRow]
      rw [if_neg hd, if_neg hn]
      by_cases hex : cmap.any (fun c => c.name = resolveName row) = true
      · rw [if_pos hex, emailsOf_map_update]
        cases hfind : cmap.find? (fun c => c.name = n) with
        | none =>
          have hcontra : ¬ emailContrib row n e := by
            rintro ⟨⟨-, hr, -⟩, -⟩
            obtain ⟨c, hcm, hcn⟩ := (any_name_iff cmap (resolveName row)).mp hex
            have hnone := List.find?_eq_none.mp hfind c hcm
            exact hnone (by simp [hcn, hr])
          simp only [emailsOf, hfind]
          simp [hcontra]
        | some c =>
          have hcn : c.name = n := by
            have hpc := List.find?_some hfind
            simpa using hpc
          have hph : emailsOf cmap n = c.email := by simp [emailsOf, hfind]
          simp only [hfind]
          by_cases heq : c.name = resolveName row
          · rw [if_pos heq, mem_email_applyKind, hph]
            constructor
            · rintro (h | ⟨hm, he⟩)
              · exact Or.inl h
              · exact Or.inr ⟨⟨hd, heq.symm.trans hcn, fun hz => hn ((heq.symm.trans hcn).trans hz)⟩,
                  hm, he.symm⟩
            · rintro (h | ⟨⟨-, -, -⟩, hm, he⟩)
              · exact Or.inl h
              · exact Or.inr ⟨hm, he.symm⟩
          · rw [if_neg heq, hph]
            have hcontra : ¬ emailContrib row n e := by
              rintro ⟨⟨-, hrn, -⟩, -⟩
              exact heq (hcn.trans hrn.symm)
            tauto
      · rw [if_neg hex]
        have hall : ∀ c ∈ cmap, c.name ≠ resolveName row := by
          intro c hcm
          simp [List.any_eq_true] at hex
          exact hex c hcm
        by_cases hnr : n = resolveName row
        · have hnone : cmap.find? (fun c => c.name = n) = none := by
            apply List.find?_eq_none.mpr
            intro c hcm
            simp [hnr, hall c hcm]
          have hname : (applyKind gm (rowGet row "mimetype") (rowGet row "data1")
              (Contact.mk (resolveName row) [] [] "" "")).name = resolveName row := by
            rw [applyKind_name]
          unfold emailsOf
          rw [findName_append_of_none hnone, hnone,
            List.find?_cons_of_pos _ (by simp [hname, hnr])]
          rw [mem_email_applyKind]
          constructor
          · rintro (h | ⟨hm, he⟩)
            · simp at h
            · exact Or.inr ⟨⟨hd, hnr.symm, fun hz => hn (hnr ▸ hz)⟩, hm, he.symm⟩
          · rintro (h | ⟨⟨-, -, -⟩, hm, he⟩)
            · simp at h
            · exact Or.inr ⟨hm, he.symm⟩
        · have hcontra : ¬ emailContrib row n e := by
            rintro ⟨⟨-, hrn, -⟩, -⟩
            exact hnr hrn.symm
          have hname : (applyKind gm (rowGet row "mimetype") (rowGet row "data1")
              (Contact.mk (resolveName row) [] [] "" "")).name = resolveName row := by
            rw [applyKind_name]
          unfold emailsOf
          cases hfind : cmap.find? (fun c => c.name = n) with
          | none =>
            rw [findName_append_of_none hfind,
              List.find?_cons_of_neg _ (by simp [hname]; exact fun h => hnr h.symm)]
            simp [hcontra]
          | some c =>
            rw [findName_append_of_some hfind]
            simp [hcontra]

theorem exists_name_processRow (gm : GroupMap) (cmap : List Contact) (row : RawRow)
    (n : String) :
    (∃ c ∈ processRow gm cmap row, c.name = n) ↔
      (∃ c ∈ cmap, c.name = n) ∨ createsName row n := by
  by_cases hd : rowGet row "data1" = ""
  · simp only [processRow]
    rw [if_pos hd]
    have hc : ¬ createsName row n := fun h => h.1 hd
    exact (or_iff_left hc).symm
  · by_cases hn : resolveName row = ""
    · simp only [processRow]
      rw [if_neg hd, if_pos hn]
      have hc : ¬ createsName row n := by
        rintro ⟨-, hr, hne⟩
        exact hne (hr ▸ hn)
      exact (or_iff_left hc).symm
    · simp only [processRow]
      rw [if_neg hd, if_neg hn]
      by_cases hex : cmap.any (fun c => c.name = resolveName row) = true
      · rw [if_pos hex]
        have hmap : ∀ c, ((fun c => if c.name = resolveName row
            then applyKind gm (rowGet row "mimetype") (rowGet row "data1") c else c) c).name
              = c.name := by
          intro c
          by_cases h : c.name = resolveName row <;> simp [h, applyKind_name]
        constructor
        · rintro ⟨c, hcm, hcn⟩
          obtain ⟨a, ham, hac⟩ := List.mem_map.mp hcm
          exact Or.inl ⟨a, ham, by rw [← hcn, ← hac, hmap]⟩
        · rintro (⟨c, hcm, hcn⟩ | ⟨-, hr, -⟩)
          · exact ⟨_, List.mem_map_of_mem _ hcm, by rw [hmap, hcn]⟩
          · obtain ⟨c, hcm, hcn⟩ := (any_name_iff cmap (resolveName row)).mp hex
            exact ⟨_, List.mem_map_of_mem _ hcm, by rw [hmap, hcn, hr]⟩
      · rw [if_neg hex]
        have hname : (applyKind gm (rowGet row "mimetype") (rowGet row "data1")
            (Contact.mk (resolveName row) [] [] "" "")).name = resolveName row := by
          rw [applyKind_name]
        constructor
        · rintro ⟨c, hcm, hcn⟩
          rcases List.mem_append.mp hcm with h | h
          · exact Or.inl ⟨c, h, hcn⟩
          · have : c = applyKind gm (rowGet row "mimetype") (rowGet row "data1")
                (Contact.mk (resolveName row) [] [] "" "") := by simpa using h
            exact Or.inr ⟨hd, by rw [← hcn, this, hname], by rw [← hcn, this, hname]; exact hn⟩
        · rintro (⟨c, hcm, hcn⟩ | ⟨-, hr, -⟩)
          · exact ⟨c, List.mem_append.mpr (Or.inl hcm), hcn⟩
          · exact ⟨applyKind gm (rowGet row "mimetype") (rowGet row "data1")
                (Contact.mk (resolveName row) [] [] "" ""),
              List.mem_append.mpr (Or.inr (by simp)), hname.trans hr⟩

/-- A data row whose name cannot be resolved is skipped entirely: the row
loop leaves the contact map unchanged. -/
theorem processRow_skip_noName (gm : GroupMap) (cmap : List Contact) (row : RawRow)
    (hn : resolveName row = "") : processRow gm cmap row = cmap := by
  simp only [processRow]
  by_cases hd : rowGet row "data1" = ""
  · rw [if_pos hd]
  · rw [if_neg hd, if_pos hn]

theorem phonesOf_foldl (gm : GroupMap) (rows : List RawRow) :
    ∀ (cmap : List Contact) (n p : String),
      p ∈ phonesOf (rows.foldl (processRow gm) cmap) n ↔
        p ∈ phonesOf cmap n ∨ ∃ r ∈ rows, phoneContrib r n p := by
  induction rows with
  | nil =>
    intro cmap n p
    simp
  | cons r rs ih =>
    intro cmap n p
    rw [List.foldl_cons, ih, phonesOf_processRow]
    constructor
    · rintro ((h | h) | ⟨a, ha, hc⟩)
      · exact Or.inl h
      · exact Or.inr ⟨r, List.mem_cons_self r rs, h⟩
      · exact Or.inr ⟨a, List.mem_cons_of_mem r ha, hc⟩
    · rintro (h | ⟨a, ha, hc⟩)
      · exact Or.inl (Or.inl h)
      · rcases List.mem_cons.mp ha with h1 | h1
        · exact Or.inl (Or.inr (h1 ▸ hc))
        · exact Or.inr ⟨a, h1, hc⟩

theorem emailsOf_foldl (gm : GroupMap) (rows : List RawRow) :
    ∀ (cmap : List Contact) (n e : String),
      e ∈ emailsOf (rows.foldl (processRow gm) cmap) n ↔
        e ∈ emailsOf cmap n ∨ ∃ r ∈ rows, emailContrib r n e := by
  induction rows with
  | nil =>
    intro cmap n e
    simp
  | cons r rs ih =>
    intro cmap n e
    rw [List.foldl_cons, ih, emailsOf_processRow]
    constructor
    · rintro ((h | h) | ⟨a, ha, hc⟩)
      · exact Or.inl h
      · exact Or.inr ⟨r, List.mem_cons_self r rs, h⟩
      · exact Or.inr ⟨a, List.mem_cons_of_mem r ha, hc⟩
    · rintro (h | ⟨a, ha, hc⟩)
      · exact Or.inl (Or.inl h)
      · rcases List.mem_cons.mp ha with h1 | h1
        · exact Or.inl (Or.inr (h1 ▸ hc))
        · exact Or.inr ⟨a, h1, hc⟩

theorem exists_name_foldl (gm : GroupMap) (rows : List RawRow) :
    ∀ (cmap : List Contact) (n : String),
      (∃ c ∈ rows.foldl (processRow gm) cmap, c.name = n) ↔
        (∃ c ∈ cmap, c.name = n) ∨ ∃ r ∈ rows, createsName r n := by
  induction rows with
  | nil =>
    intro cmap n
    simp
  | cons r rs ih =>
    intro cmap n
    rw [List.foldl_cons, ih, exists_name_processRow]
    constructor
    · rintro ((h | h) | ⟨a, ha, hc⟩)
      · exact Or.inl h
      · exact Or.inr ⟨r, List.mem_cons_self r rs, h⟩
      · exact Or.inr ⟨a, List.mem_cons_of_mem r ha, hc⟩
    · rintro (h | ⟨a, ha, hc⟩)
      · exact Or.inl (Or.inl h)
      · rcases List.mem_cons.mp ha with h1 | h1
        · exact Or.inl (Or.inr (h1 ▸ hc))
        · exact Or.inr ⟨a, h1, hc⟩

theorem phonesNE_processRow (gm : GroupMap) (cmap : List Contact) (row : RawRow)
    (h : ∀ c ∈ cmap, ∀ q ∈ c.phone, q ≠ "") :
    ∀ c ∈ processRow gm cmap row, ∀ q ∈ c.phone, q ≠ "" := by
  have happ : ∀ (c : Contact), (∀ q ∈ c.phone, q ≠ "") →
      ∀ q ∈ (applyKind gm (rowGet row "mimetype") (rowGet row "data1") c).phone, q ≠ "" := by
    intro c hc q hq
    rcases (mem_phone_applyKind _ _ _ _ _).mp hq with hq1 | ⟨-, hq1, hz⟩
    · exact hc q hq1
    · exact hq1 ▸ hz
  simp only [processRow]
  by_cases hd : rowGet row "data1" = ""
  · rw [if_pos hd]
    exact h
  · rw [if_neg hd]
    by_cases hn : resolveName row = ""
    · rw [if_pos hn]
      exact h
    · rw [if_neg hn]
      by_cases hex : cmap.any (fun c => c.name = resolveName row) = true
      · rw [if_pos hex]
        intro c hc
        obtain ⟨a, ha, rfl⟩ := List.mem_map.mp hc
        by_cases hna : a.name = resolveName row
        · rw [if_pos hna]
          exact happ a (h a ha)
        · rw [if_neg hna]
          exact h a ha
      · rw [if_neg hex]
        intro c hc
        rcases List.mem_append.mp hc with hc1 | hc1
        · exact h c hc1
        · have hce : c = applyKind gm (rowGet row "mimetype") (rowGet row "data1")
              (Contact.mk (resolveName row) [] [] "" "") := by simpa using hc1
          subst hce
          refine happ _ ?_
          intro q hq
          simp at hq

theorem getAllContacts_phones_ne (gm : GroupMap) (rows : List RawRow) :
    ∀ c ∈ getAllContacts gm rows, ∀ q ∈ c.phone, q ≠ "" := by
  unfold getAllContacts
  suffices hgen : ∀ (cmap : List Contact), (∀ c ∈ cmap, ∀ q ∈ c.phone, q ≠ "") →
      ∀ c ∈ rows.foldl (processRow gm) cmap, ∀ q ∈ c.phone, q ≠ "" by
    refine hgen [] ?_
    intro c hc
    simp at hc
  induction rows with
  | nil =>
    intro cmap hc
    simpa using hc
  | cons r rs ih =>
    intro cmap hc
    rw [List.foldl_cons]
    exact ih _ (phonesNE_processRow gm cmap r hc)

theorem processRow_noDigitPhone (gm : GroupMap) (cmap : List Contact) (row : RawRow)
    (n : String) (hd : rowGet row "data1" ≠ "") (hr : resolveName row = n) (hn : n ≠ "")
    (hm : rowGet row "mimetype" = phoneMime)
    (hz : normalizePhone (rowGet row "data1") = "") :
    (∀ m, phonesOf (processRow gm cmap row) m = phonesOf cmap m) ∧
      (∃ c ∈ processRow gm cmap row, c.name = n) := by
  have hid : ∀ c, applyKind gm (rowGet row "mimetype") (rowGet row "data1") c = c := by
    intro c
    rw [hm]
    exact applyKind_phone_noDigits gm c hz
  simp only [processRow]
  rw [if_neg hd, hr, if_neg hn]
  by_cases hex : cmap.any (fun c => c.name = n) = true
  · rw [if_pos hex]
    have hmap : cmap.map (fun c => if c.name = n then
        applyKind gm (rowGet row "mimetype") (rowGet row "data1") c else c) = cmap := by
      have hcg : ∀ c ∈ cmap, (if c.name = n then
          applyKind gm (rowGet row "mimetype") (rowGet row "data1") c else c) = c := by
        intro c hcm
        by_cases hcn : c.name = n
        · rw [if_pos hcn, hid]
        · rw [if_neg hcn]
      rw [List.map_congr_left hcg]
      simp
    rw [hmap]
    refine ⟨fun m => rfl, ?_⟩
    exact (any_name_iff cmap n).mp hex
  · rw [if_neg hex, hid]
    have hall : ∀ c ∈ cmap, c.name ≠ n := by
      intro c hcm
      simp [List.any_eq_true] at hex
      exact hex c hcm
    constructor
    · intro m
      unfold phonesOf
      by_cases hmn : m = n
      · have hnone : cmap.find? (fun c => c.name = m) = none := by
          apply List.find?_eq_none.mpr
          intro c hcm
          simp [hmn, hall c hcm]
        rw [findName_append_of_none hnone, hnone, List.find?_cons_of_pos _ (by simp [hmn])]
      · cases hfind : cmap.find? (fun c => c.name = m) with
        | none =>
          rw [findName_append_of_none hfind,
            List.find?_cons_of_neg _ (by simp; exact fun hcon => hmn hcon.symm)]
          rfl
        | some c =>
          rw [findName_append_of_some hfind]
    · exact ⟨Contact.mk n [] [] "" "", List.mem_append.mpr (Or.inr (by simp)), rfl⟩

/-- C2 (counterexample): the aggregation is not invariant under permutation
of the rows as the claim states: two note rows for the same contact produce
notes "a | b" in one order and "b | a" in the other, which are not equal as
content. -/
theorem claim_C2_counterexample :
    List.Perm [mkNoteRow "Ann" "b", mkNoteRow "Ann" "a"]
      [mkNoteRow "Ann" "a", mkNoteRow "Ann" "b"] ∧
    notesOf (getAllContacts [] [mkNoteRow "Ann" "a", mkNoteRow "Ann" "b"]) "Ann" = "a | b" ∧
    notesOf (getAllContacts [] [mkNoteRow "Ann" "b", mkNoteRow "Ann" "a"]) "Ann" = "b | a" ∧
    notesOf (getAllContacts [] [mkNoteRow "Ann" "a", mkNoteRow "Ann" "b"]) "Ann" ≠
      notesOf (getAllContacts [] [mkNoteRow "Ann" "b", mkNoteRow "Ann" "a"]) "Ann" :=
  ⟨List.Perm.swap (mkNoteRow "Ann" "a") (mkNoteRow "Ann" "b") [],
    by decide, by decide, by decide⟩

/-- C2 (amended): running the aggregation on any permutation of a row
sequence, with a fixed GroupIndex, yields the same set of contact names and,
for every name, the same phone set and the same email set; the notes and
group strings may depend on the row order. -/
theorem claim_C2_amended (gm : GroupMap) (rows rows2 : List RawRow)
    (hp : List.Perm rows rows2) :
    (∀ n, (∃ c ∈ getAllContacts gm rows, c.name = n) ↔
        (∃ c ∈ getAllContacts gm rows2, c.name = n)) ∧
    (∀ n p, p ∈ phonesOf (getAllContacts gm rows) n ↔
        p ∈ phonesOf (getAllContacts gm rows2) n) ∧
    (∀ n e, e ∈ emailsOf (getAllContacts gm rows) n ↔
        e ∈ emailsOf (getAllContacts gm rows2) n) := by
  have hm : ∀ (P : RawRow → Prop), (∃ r ∈ rows, P r) ↔ (∃ r ∈ rows2, P r) := by
    intro P
    constructor
    · rintro ⟨r, hr, hpr⟩
      exact ⟨r, hp.mem_iff.mp hr, hpr⟩
    · rintro ⟨r, hr, hpr⟩
      exact ⟨r, hp.mem_iff.mpr hr, hpr⟩
  unfold getAllContacts
  refine ⟨fun n => ?_, fun n p => ?_, fun n e => ?_⟩
  · rw [exists_name_foldl, exists_name_foldl]
    simp only [List.not_mem_nil, false_and, exists_false, exists_and_left, false_or]
    exact hm _
  · rw [phonesOf_foldl, phonesOf_foldl]
    have h0 : phonesOf ([] : List Contact) n = [] := rfl
    rw [h0]
    simp only [List.not_mem_nil, false_or]
    exact hm _
  · rw [emailsOf_foldl, emailsOf_foldl]
    have h0 : emailsOf ([] : List Contact) n = [] := rfl
    rw [h0]
    simp only [List.not_mem_nil, false_or]
    exact hm _

/-- C2 (witness): the amended permutation-invariance theorem applied to a
concrete two-row sequence and its transposition. -/
theorem claim_C2_witness :
    (∃ c ∈ getAllContacts [] [mkNoteRow "Ann" "a", mkNoteRow "Ann" "b"], c.name = "Ann") ↔
      (∃ c ∈ getAllContacts [] [mkNoteRow "Ann" "b", mkNoteRow "Ann" "a"], c.name = "Ann") :=
  (claim_C2_amended [] [mkNoteRow "Ann" "a", mkNoteRow "Ann" "b"]
    [mkNoteRow "Ann" "b", mkNoteRow "Ann" "a"]
    (List.Perm.swap (mkNoteRow "Ann" "b") (mkNoteRow "Ann" "a") [])).1 "Ann"

/-- C8 (counterexample): a phone-kind row with non-empty primary value and
no name-bearing column contributes to no Contact at all; in particular no
Contact named "unknown" is produced, contrary to the claimed sentinel
fallback. -/
theorem claim_C8_counterexample :
    rowGet noNameRow "data1" = "123" ∧
    getAllContacts [] [noNameRow] = [] ∧
    ¬ ∃ c ∈ getAllContacts [] [noNameRow], c.name = "unknown" := by
  have h : getAllContacts [] [noNameRow] = [] := by decide
  refine ⟨by decide, h, ?_⟩
  rintro ⟨c, hc, -⟩
  rw [h] at hc
  exact List.not_mem_nil c hc

/-- C8 (amended): a data row with a non-empty primary value in which no
name can be resolved is skipped: the row loop leaves the contact map
unchanged and the row contributes to no Contact (there is no sentinel
"unknown" name). -/
theorem claim_C8_amended (gm : GroupMap) (cmap : List Contact) (row : RawRow)
    (_hd : rowGet row "data1" ≠ "") (hn : resolveName row = "") :
    processRow gm cmap row = cmap :=
  processRow_skip_noName gm cmap row hn

/-- C8 (witness): the amended skip theorem applied to the concrete
name-less phone row. -/
theorem claim_C8_witness : processRow [] [] noNameRow = [] :=
  claim_C8_amended [] [] noNameRow (by decide) (by decide)

/-- C9 (confirmed): a failed query, an empty raw result, and a
whitespace-only raw result are all treated as an empty scan: the row parser
returns no rows and the aggregation returns no contacts, with no error. -/
theorem claim_C9 :
    (∀ r : String, runQueryParsed false r = []) ∧
    (∀ b : Bool, runQueryParsed b "" = []) ∧
    (∀ s : String, pyStrip s = "" → parseQueryResult s = []) ∧
    (∀ (gm : GroupMap) (b : Bool) (s : String), pyStrip s = "" →
      getAllContacts gm (runQueryParsed b s) = []) := by
  have h3 : ∀ s : String, pyStrip s = "" → parseQueryResult s = [] := by
    intro s hs
    unfold parseQueryResult
    rw [hs]
    simp
  refine ⟨?_, ?_, h3, ?_⟩
  · intro r
    simp [runQueryParsed]
  · intro b
    cases b <;> simp [runQueryParsed]
  · intro gm b s hs
    cases b with
    | false => rfl
    | true =>
      by_cases hse : s = ""
      · subst hse
        rfl
      · have hq : runQueryParsed true s = parseQueryResult s := by
          simp [runQueryParsed, hse]
        rw [hq, h3 s hs]
        rfl

/-- C9 (witness): the empty-scan theorem applied to a whitespace-only raw
result. -/
theorem claim_C9_witness :
    parseQueryResult " " = [] ∧ getAllContacts [] (runQueryParsed true " ") = [] :=
  ⟨claim_C9.2.2.1 " " (by decide), claim_C9.2.2.2 [] true " " (by decide)⟩

/-- C10 (confirmed): every phone string in the aggregation output is
non-empty, and a phone-kind row whose primary value normalizes to the empty
string leaves every contact phone list unchanged while still ensuring a
Contact exists for its resolved name. -/
theorem claim_C10 :
    (∀ (gm : GroupMap) (rows : List RawRow),
      ∀ c ∈ getAllContacts gm rows, ∀ q ∈ c.phone, q ≠ "") ∧
    (∀ (gm : GroupMap) (cmap : List Contact) (row : RawRow) (n : String),
      rowGet row "data1" ≠ "" → resolveName row = n → n ≠ "" →
      rowGet row "mimetype" = phoneMime →
      normalizePhone (rowGet row "data1") = "" →
      (∀ m, phonesOf (processRow gm cmap row) m = phonesOf cmap m) ∧
        (∃ c ∈ processRow gm cmap row, c.name = n)) :=
  ⟨fun gm rows => getAllContacts_phones_ne gm rows,
    fun gm cmap row n hd hr hn hm hz => processRow_noDigitPhone gm cmap row n hd hr hn hm hz⟩

/-- C10 (witness): the digit-less phone row theorem applied to a concrete
row whose primary value has no digits. -/
theorem claim_C10_witness :
    phonesOf (processRow [] [] noDigitRow) "Bob" = phonesOf ([] : List Contact) "Bob" ∧
    ∃ c ∈ processRow [] [] noDigitRow, c.name = "Bob" := by
  have h := claim_C10.2 [] [] noDigitRow "Bob" (by decide) (by decide) (by decide)
    (by decide) (by decide)
  exact ⟨h.1 "Bob", h.2⟩

theorem rowGet_ne_hasKey {row : RawRow} {k : String} (h : rowGet row k ≠ "") :
    rowHasKey row k = true := by
  unfold rowGet at h
  unfold rowHasKey
  cases hf : row.find? (fun kv => kv.1 = k) with
  | none =>
    rw [hf] at h
    exact absurd rfl h
  | some kv =>
    have hm := List.mem_of_find?_eq_some hf
    have hp := List.find?_some hf
    rw [List.any_eq_true]
    exact ⟨kv, hm, hp⟩

/-- C1 (counterexample): on a row whose only name-bearing column is the
exact label display_name, the claimed selection (substring sort_key, else
suffix display_name_alt, else empty, with display_name playing no role)
yields the empty string, while the code resolves the name "Bob". -/
theorem claim_C1_counterexample :
    specResolveName bobRow = "" ∧ resolveName bobRow = "Bob" ∧
    specResolveName bobRow ≠ resolveName bobRow :=
  ⟨by decide, by decide, by decide⟩

/-- C1 (amended): the resolved display name is selected by exact column
key, in the order sort_key, display_name, display_name_alt; the first key
present with a non-empty value wins and its value is decoded by
process_value; if none matches the name is empty.  In particular a plain
display_name column does participate, at second priority. -/
theorem claim_C1_amended (row : RawRow) :
    (rowGet row "sort_key" ≠ "" → resolveName row = processValue row "sort_key") ∧
    (rowGet row "sort_key" = "" → rowGet row "display_name" ≠ "" →
      resolveName row = processValue row "display_name") ∧
    (rowGet row "sort_key" = "" → rowGet row "display_name" = "" →
      rowGet row "display_name_alt" ≠ "" →
      resolveName row = processValue row "display_name_alt") ∧
    (rowGet row "sort_key" = "" → rowGet row "display_name" = "" →
      rowGet row "display_name_alt" = "" → resolveName row = "") := by
  refine ⟨fun h1 => ?_, fun h1 h2 => ?_, fun h1 h2 h3 => ?_, fun h1 h2 h3 => ?_⟩
  · simp only [resolveName, nameLoop]
    rw [if_pos (by simp [rowGet_ne_hasKey h1, h1])]
  · simp only [resolveName, nameLoop]
    rw [if_neg (by simp [h1]), if_pos (by simp [rowGet_ne_hasKey h2, h2])]
  · simp only [resolveName, nameLoop]
    rw [if_neg (by simp [h1]), if_neg (by simp [h2]),
      if_pos (by simp [rowGet_ne_hasKey h3, h3])]
  · simp only [resolveName, nameLoop]
    rw [if_neg (by simp [h1]), if_neg (by simp [h2]), if_neg (by simp [h3])]

/-- C1 (witness): the amended selection theorem applied to a row carrying
an exact sort_key column. -/
theorem claim_C1_witness :
    resolveName [("sort_key", "Kim")] = processValue [("sort_key", "Kim")] "sort_key" :=
  (claim_C1_amended [("sort_key", "Kim")]).1 (by decide)

theorem sliceOdd_get {α : Type} : ∀ (l : List α) (i : Nat),
    (sliceOdd l).get? i = l.get? (2 * i + 1) := by
  intro l i
  induction i generalizing l with
  | zero =>
    match l with
    | [] => rfl
    | [a] => rfl
    | a :: b :: t => rfl
  | succ k ih =>
    match l with
    | [] => rfl
    | [a] =>
      have h : 2 * (k + 1) + 1 = 2 * k + 1 + 1 + 1 := by omega
      rw [h]
      simp [sliceOdd]
    | a :: b :: t =>
      have h : 2 * (k + 1) + 1 = 2 * k + 1 + 1 + 1 := by omega
      rw [h]
      simp only [sliceOdd, List.get?_cons_succ]
      exact ih t

/-- C6 (confirmed): the even-position extraction takes exactly the
whitespace-split tokens at odd zero-based indices, joins them with one
space when exactly two were selected and concatenates them otherwise; the
two pinned fixtures decode as specified, and a value not classified as CJK
is returned unchanged. -/
theorem claim_C6 :
    (∀ (l : List String) (i : Nat), (sliceOdd l).get? i = l.get? (2 * i + 1)) ∧
    decodeName "张 Zhang 三 San" = "Zhang San" ∧
    decodeName "李 Li 雷 Lei 明 Ming" = "LiLeiMing" ∧
    (∀ v : String, isChinese v = false → decodeName v = v) ∧
    (∀ v : String, isChinese v = true → decodeName v = extractEvenPositions v) := by
  refine ⟨fun l i => sliceOdd_get l i, by decide, by decide, ?_, ?_⟩
  · intro v hv
    simp [decodeName, hv]
  · intro v hv
    simp [decodeName, hv]

/-- C6 (witness): the non-CJK identity applied to a Latin-script name. -/
theorem claim_C6_witness : decodeName "Bob" = "Bob" :=
  claim_C6.2.2.2.1 "Bob" (by decide)

theorem pyIsDigit_ascii (c : Char) (h : c.toNat < 128) :
    pyIsDigit c = specIsAsciiDigit c := by
  by_cases hd : 0x30 ≤ c.toNat ∧ c.toNat ≤ 0x39
  · have h1 : specIsAsciiDigit c = true := by
      simp only [specIsAsciiDigit, Bool.and_eq_true, decide_eq_true_eq]
      omega
    have h2 : pyIsDigit c = true := by
      simp only [pyIsDigit, Bool.or_eq_true, Bool.and_eq_true, decide_eq_true_eq,
        Nat.beq_eq_true_eq, beq_iff_eq]
      omega
    rw [h1, h2]
  · have h1 : specIsAsciiDigit c = false := by
      rw [← Bool.not_eq_true]
      simp only [specIsAsciiDigit, Bool.and_eq_true, decide_eq_true_eq]
      omega
    have h2 : pyIsDigit c = false := by
      rw [← Bool.not_eq_true]
      simp only [pyIsDigit, Bool.or_eq_true, Bool.and_eq_true, decide_eq_true_eq,
        Nat.beq_eq_true_eq, beq_iff_eq]
      omega
    rw [h1, h2]

/-- C7 (counterexample): normalize_phone keeps every character accepted by
Python str.isdigit, which is broader than ASCII 0-9: the Arabic-Indic digit
two is kept, so the output is not restricted to the characters 0-9 as the
claim states. -/
theorem claim_C7_counterexample :
    normalizePhone "٢3" = "٢3" ∧ specNormalizePhone "٢3" = "3" ∧
    normalizePhone "٢3" ≠ specNormalizePhone "٢3" :=
  ⟨by decide, by decide, by decide⟩

/-- C7 (amended): normalize_phone removes every character that Python's
str.isdigit rejects, keeping the accepted characters in their original
order (the output is a sublist of the input); on inputs consisting only of
ASCII characters this keeps exactly the characters 0-9, and the two pinned
fixtures hold. -/
theorem claim_C7_amended :
    (∀ s : String, (∀ c ∈ s.data, c.toNat < 128) →
      normalizePhone s = specNormalizePhone s) ∧
    (∀ s : String, (normalizePhone s).data.Sublist s.data) ∧
    normalizePhone "+1 (555) 123-4567" = "15551234567" ∧
    normalizePhone "" = "" := by
  refine ⟨?_, ?_, by decide, rfl⟩
  · intro s hs
    unfold normalizePhone specNormalizePhone
    by_cases h0 : s = ""
    · subst h0
      rfl
    · rw [if_neg h0]
      exact congrArg String.mk (List.filter_congr (fun c hc => pyIsDigit_ascii c (hs c hc)))
  · intro s
    unfold normalizePhone
    by_cases h0 : s = ""
    · subst h0
      rw [if_pos rfl]
    · rw [if_neg h0]
      exact List.filter_sublist s.data

/-- C7 (witness): the ASCII-restricted normalization theorem applied to a
concrete ASCII phone string. -/
theorem claim_C7_witness : normalizePhone "+15" = specNormalizePhone "+15" :=
  claim_C7_amended.1 "+15" (by decide)

theorem mkNoteRow_get_data1 (n v : String) : rowGet (mkNoteRow n v) "data1" = v := rfl

theorem mkNoteRow_get_mime (n v : String) : rowGet (mkNoteRow n v) "mimetype" = noteMime := rfl

theorem mkNoteRow_get_dn (n v : String) : rowGet (mkNoteRow n v) "display_name" = n := rfl

theorem mkNoteRow_haskey_sk (n v : String) : rowHasKey (mkNoteRow n v) "sort_key" = false := rfl

theorem mkNoteRow_haskey_dn (n v : String) : rowHasKey (mkNoteRow n v) "display_name" = true := rfl

theorem resolveName_mkNoteRow (n v : String) (hc : isChinese n = false) (hn : n ≠ "") :
    resolveName (mkNoteRow n v) = n := by
  simp only [resolveName, nameLoop]
  rw [if_neg (by rw [mkNoteRow_haskey_sk]; simp),
    if_pos (by rw [mkNoteRow_haskey_dn, mkNoteRow_get_dn]; simp [hn])]
  simp [processValue, mkNoteRow_get_dn, decodeName, hc]

theorem notesOf_map_update (gm : GroupMap) (mt d nm : String) (cmap : List Contact)
    (n : String) :
    notesOf (cmap.map (fun c => if c.name = nm then applyKind gm mt d c else c)) n =
      (match cmap.find? (fun c => c.name = n) with
       | some c => if c.name = nm then (applyKind gm mt d c).notes else c.notes
       | none => "") := by
  unfold notesOf
  rw [find?_name_map (fun c => by by_cases h : c.name = nm <;> simp [h, applyKind_name])]
  cases cmap.find? (fun c => c.name = n) with
  | none => rfl
  | some c => by_cases h : c.name = nm <;> simp [h]

theorem notesOf_processRow_note (gm : GroupMap) (cmap : List Contact) (row : RawRow)
    (n : String) (hd : rowGet row "data1" ≠ "") (hr : resolveName row = n) (hn : n ≠ "")
    (hm : rowGet row "mimetype" = noteMime) :
    notesOf (processRow gm cmap row) n =
      if notesOf cmap n = "" then rowGet row "data1"
      else if pyInStr (rowGet row "data1") (notesOf cmap n) = false then
        notesOf cmap n ++ " | " ++ rowGet row "data1"
      else notesOf cmap n := by
  simp only [processRow]
  rw [if_neg hd, hr, if_neg hn]
  by_cases hex : cmap.any (fun c => c.name = n) = true
  · rw [if_pos hex, notesOf_map_update]
    cases hfind : cmap.find? (fun c => c.name = n) with
    | none =>
      obtain ⟨c, hcm, hcn⟩ := (any_name_iff cmap n).mp hex
      exact absurd (show (fun c : Contact => decide (c.name = n)) c = true by simp [hcn])
        (List.find?_eq_none.mp hfind c hcm)
    | some c =>
      have hcn : c.name = n := by simpa using List.find?_some hfind
      have hno : notesOf cmap n = c.notes := by simp [notesOf, hfind]
      dsimp only
      rw [if_pos hcn, hm, applyKind_notes_note, hno]
  · rw [if_neg hex]
    have hnone : cmap.find? (fun c => c.name = n) = none := by
      apply List.find?_eq_none.mpr
      intro c hcm
      intro hpc
      exact hex ((any_name_iff cmap n).mpr ⟨c, hcm, by simpa using hpc⟩)
    unfold notesOf
    rw [findName_append_of_none hnone,
      List.find?_cons_of_pos _ (by simp [applyKind_name]), hnone]
    dsimp only
    rw [hm, applyKind_notes_note]

theorem str_append_ne (a b : String) (ha : a ≠ "") : a ++ b ≠ "" := by
  intro h
  apply ha
  have hd := congrArg String.data h
  rw [String.data_append] at hd
  exact String.ext (List.append_eq_nil.mp hd).1

theorem notesJoinAcc_spec : ∀ (vs : List String) (a : String), a ≠ "" →
    notesJoinAcc a vs = vs.foldl (fun x w => x ++ " | " ++ w) a := by
  intro vs
  induction vs with
  | nil =>
    intro a _
    rfl
  | cons v rest ih =>
    intro a ha
    simp only [notesJoinAcc, List.foldl_cons]
    rw [if_neg ha]
    exact ih (a ++ " | " ++ v) (str_append_ne _ v (str_append_ne a " | " ha))

theorem notesOf_foldl_noteRows (gm : GroupMap) (n : String)
    (hc : isChinese n = false) (hn : n ≠ "") :
    ∀ (vs : List String) (cmap : List Contact) (acc : String),
      notesOf cmap n = acc → freshNotes acc vs = true →
      notesOf ((vs.map (mkNoteRow n)).foldl (processRow gm) cmap) n =
        notesJoinAcc acc vs := by
  intro vs
  induction vs with
  | nil =>
    intro cmap acc hacc _
    simpa using hacc
  | cons v rest ih =>
    intro cmap acc hacc hf
    simp only [freshNotes, Bool.and_eq_true, decide_eq_true_eq, Bool.or_eq_true,
      Bool.not_eq_true'] at hf
    obtain ⟨⟨hv, hor⟩, hf2⟩ := hf
    rw [List.map_cons, List.foldl_cons]
    have hstep : notesOf (processRow gm cmap (mkNoteRow n v)) n =
        (if acc = "" then v else acc ++ " | " ++ v) := by
      rw [notesOf_processRow_note gm cmap (mkNoteRow n v) n
        (by rw [mkNoteRow_get_data1]; exact hv)
        (resolveName_mkNoteRow n v hc hn) hn (mkNoteRow_get_mime n v),
        mkNoteRow_get_data1, hacc]
      by_cases ha : acc = ""
      · rw [if_pos ha, if_pos ha]
      · rw [if_neg ha, if_neg ha]
        rcases hor with h | h
        · exact absurd h ha
        · rw [if_pos h]
    rw [ih _ _ hstep hf2]
    rfl

/-- C4 (counterexample): two note rows with the same value for the same
contact do not concatenate: the substring test in the note branch skips the
duplicate, so the notes are "dup" rather than the claimed join
"dup | dup". -/
theorem claim_C4_counterexample :
    notesOf (getAllContacts [] [mkNoteRow "Ann" "dup", mkNoteRow "Ann" "dup"]) "Ann" = "dup" ∧
    specNotesJoin ["dup", "dup"] = "dup | dup" ∧
    notesOf (getAllContacts [] [mkNoteRow "Ann" "dup", mkNoteRow "Ann" "dup"]) "Ann" ≠
      specNotesJoin ["dup", "dup"] :=
  ⟨by decide, by decide, by decide⟩

/-- C4 (amended): a note value is appended (as " | " + value) only when it
is not already a substring of the contact notes accumulated so far,
otherwise the row is skipped; consequently, after k note rows whose values
are non-empty and each fresh with respect to the notes accumulated before
it, the notes field is the concatenation of all k values joined by " | ". -/
theorem claim_C4_amended (gm : GroupMap) (n : String) (vs : List String)
    (hc : isChinese n = false) (hn : n ≠ "") (hf : freshNotes "" vs = true) :
    notesOf (getAllContacts gm (vs.map (mkNoteRow n))) n = specNotesJoin vs := by
  unfold getAllContacts
  rw [notesOf_foldl_noteRows gm n hc hn vs [] "" rfl hf]
  cases vs with
  | nil => rfl
  | cons v rest =>
    have hv : v ≠ "" := by
      simp only [freshNotes, Bool.and_eq_true, decide_eq_true_eq] at hf
      exact hf.1.1
    simp only [notesJoinAcc, specNotesJoin]
    rw [if_pos trivial]
    exact notesJoinAcc_spec rest v hv

/-- C4 (witness): the amended concatenation theorem applied to two fresh
note values. -/
theorem claim_C4_witness :
    notesOf (getAllContacts [] (["a", "b"].map (mkNoteRow "Ann"))) "Ann" =
      specNotesJoin ["a", "b"] :=
  claim_C4_amended [] "Ann" ["a", "b"] (by decide) (by decide) (by decide)

theorem splitRowMarker_no_occurrence : ∀ (y : List Char),
    infixCheck "Row:".data y = false → splitRowMarker y = [y] := by
  intro y
  induction y with
  | nil =>
    intro _
    rfl
  | cons c rest ih =>
    intro h
    simp only [infixCheck, Bool.or_eq_false_iff] at h
    obtain ⟨hpre, hrest⟩ := h
    rw [splitRowMarker.eq_def]
    split
    · next x rest2 heq =>
      rw [heq] at hpre
      simp [List.isPrefixOf] at hpre
    · next x heq => exact absurd heq (by simp)
    · next x c2 rest2 hnm heq =>
      injection heq with h1 h2
      subst h1
      subst h2
      rw [ih hrest]

theorem parseRowLine_marker (rest : String) (h : pyInStr "Row:" rest = false) :
    parseRowLine ("Row:" ++ rest) = parseRowData (pyStrip rest) := by
  unfold parseRowLine
  rw [String.data_append]
  have h1 : splitRowMarker ("Row:".data ++ rest.data) = [] :: splitRowMarker rest.data := rfl
  rw [h1, splitRowMarker_no_occurrence rest.data h]
  rfl

/-- C3 (counterexample): the tokenizer does not strip the numeric row
index: on the line `Row: 0 _id=5, data1=x` the first recorded column key is
"0 _id" — the dump's first column label with the index still prefixed — not
"_id" as the claim states. -/
theorem claim_C3_counterexample :
    parseQueryResult "Row: 0 _id=5, data1=x" = [[("0 _id", "5"), ("data1", "x")]] ∧
    ("0 _id" : String) ≠ "_id" :=
  ⟨by decide, by decide⟩

/-- C3 (amended): the per-line tokenizer strips only the leading marker
`Row:` (the text after the first occurrence of the marker, whitespace
trimmed, is fed to the row parser); the numeric row index is not removed
and is absorbed into the first token's key. -/
theorem claim_C3_amended :
    (∀ rest : String, pyInStr "Row:" rest = false →
      parseRowLine ("Row:" ++ rest) = parseRowData (pyStrip rest)) ∧
    parseQueryResult "Row: 7 _id=5, data1=x" = [[("7 _id", "5"), ("data1", "x")]] ∧
    parseQueryResult "Row: 23 _id=5, data1=x" = [[("23 _id", "5"), ("data1", "x")]] :=
  ⟨fun rest h => parseRowLine_marker rest h, by decide, by decide⟩

/-- C3 (witness): the marker-stripping theorem applied to a concrete line
remainder that carries a row index. -/
theorem claim_C3_witness :
    parseRowLine ("Row:" ++ " 9 k=v") = parseRowData (pyStrip " 9 k=v") :=
  claim_C3_amended.1 " 9 k=v" (by decide)

theorem findIdxEq_pos (p : List Char) (hh : p.headD ' ' ≠ '=')
    (hc : p.contains '=' = true) : 0 < p.findIdx (fun c => c = '=') := by
  cases p with
  | nil => simp at hc
  | cons c rest =>
    have hcne : c ≠ '=' := by simpa using hh
    simp [List.findIdx_cons, hcne]

theorem findIdxEq_lt : ∀ (p : List Char), p.contains '=' = true →
    p.getLastD ' ' ≠ '=' → p.findIdx (fun c => c = '=') < p.length - 1 := by
  intro p
  induction p with
  | nil =>
    intro hc _
    simp at hc
  | cons c rest ih =>
    intro hc hl
    have hrne : rest ≠ [] := by
      intro he
      subst he
      simp at hc
      rw [List.getLastD_cons] at hl
      exact hl (by simpa using hc.symm)
    have hlr : rest.getLastD ' ' ≠ '=' := by
      cases rest with
      | nil => exact absurd rfl hrne
      | cons a l =>
        rw [List.getLastD_cons] at hl ⊢
        rw [List.getLastD_cons] at hl
        exact hl
    have hrl : 0 < rest.length := List.length_pos.mpr hrne
    by_cases hce : c = '='
    · rw [List.findIdx_cons]
      simp only [hce, decide_True, cond_true, List.length_cons]
      omega
    · have hcr : rest.contains '=' = true := by
        rw [List.contains_cons] at hc
        simp only [Bool.or_eq_true, beq_iff_eq] at hc
        rcases hc with h | h
        · exact absurd h.symm hce
        · exact h
      have ihh := ih hcr hlr
      rw [List.findIdx_cons]
      simp only [hce, decide_False, cond_false, List.length_cons]
      omega

theorem isNewKeyValue_eq_amendedStop (p : List Char) :
    isNewKeyValue p = amendedStop p := by
  unfold isNewKeyValue amendedStop
  cases hcb : p.contains '=' with
  | false => simp [hcb]
  | true =>
    by_cases hh : p.headD ' ' = '='
    · rw [hh]
      simp
    · by_cases hl : p.getLastD ' ' = '='
      · rw [hl]
        simp
      · have h1 := findIdxEq_pos p hh hcb
        have h2 := findIdxEq_lt p hcb hl
        simp only [hcb, Bool.true_and]
        rw [(by rw [decide_eq_false_iff_not]; exact hh : decide (p.headD ' ' = '=') = false),
          (by rw [decide_eq_false_iff_not]; exact hl : decide (p.getLastD ' ' = '=') = false)]
        simp [h1, h2]

theorem parsePartsGo_absorb_all (key : String) :
    ∀ (vs vps : List String) (acc : RawRow),
      (∀ v ∈ vs, amendedStop v.data = false) →
      parsePartsGo vs (some (key, vps)) acc =
        dictInsert acc key (finishValue (vps ++ vs)) := by
  intro vs
  induction vs with
  | nil =>
    intro vps acc _
    simp [parsePartsGo]
  | cons v rest ih =>
    intro vps acc hall
    have hv : amendedStop v.data = false := hall v (List.mem_cons_self v rest)
    have hnv : isNewKeyValue v.data = false := by
      rw [isNewKeyValue_eq_amendedStop]
      exact hv
    simp only [parsePartsGo]
    rw [if_neg (by simp [hnv])]
    rw [ih (vps ++ [v]) acc (fun w hw => hall w (List.mem_cons_of_mem v hw))]
    rw [List.append_assoc]
    rfl

theorem parsePartsGo_absorb_until (key : String) :
    ∀ (vs : List String) (q : String) (rest vps : List String) (acc : RawRow),
      (∀ v ∈ vs, amendedStop v.data = false) → amendedStop q.data = true →
      parsePartsGo (vs ++ q :: rest) (some (key, vps)) acc =
        parsePartsGo (q :: rest) (some (key, vps ++ vs)) acc := by
  intro vs
  induction vs with
  | nil =>
    intro q rest vps acc _ _
    simp
  | cons v tail ih =>
    intro q rest vps acc hall hq
    have hv : amendedStop v.data = false := hall v (List.mem_cons_self v tail)
    have hnv : isNewKeyValue v.data = false := by
      rw [isNewKeyValue_eq_amendedStop]
      exact hv
    rw [List.cons_append]
    simp only [parsePartsGo]
    rw [if_neg (by simp [hnv])]
    rw [ih q rest (vps ++ [v]) acc (fun w hw => hall w (List.mem_cons_of_mem v hw)) hq]
    rw [List.append_assoc]
    rfl

/-- C5 (counterexample): the token "a=b=" contains an equals sign with
non-empty content on both sides, so under the claimed stop rule the
absorption would stop before it; the code nevertheless absorbs it (because
the token ends with an equals sign), so data-key k receives the value
"x=y, a=b=" rather than "x=y". -/
theorem claim_C5_counterexample :
    specIsNewKeyValue "a=b=".data = true ∧
    parseRowData "k=x=y, a=b=, m=n" = [("k", "x=y, a=b="), ("m", "n")] ∧
    rowGet (parseRowData "k=x=y, a=b=, m=n") "k" ≠ "x=y" :=
  ⟨by decide, by decide, by decide⟩

/-- C5 (amended): when a token contains more than one equals sign the
tokenizer splits on the first to get the key and greedily absorbs the
following tokens (rejoined with ", "), stopping — without consuming — at
the first token that contains an equals sign and neither starts nor ends
with one; the redundant index conditions of the code are equivalent to
that test, and the pinned fixture parses data1 to "Hello". -/
theorem claim_C5_amended :
    (∀ p : List Char, isNewKeyValue p = amendedStop p) ∧
    (∀ (key : String) (vs vps : List String) (acc : RawRow),
      (∀ v ∈ vs, amendedStop v.data = false) →
      parsePartsGo vs (some (key, vps)) acc =
        dictInsert acc key (finishValue (vps ++ vs))) ∧
    (∀ (key q : String) (vs rest vps : List String) (acc : RawRow),
      (∀ v ∈ vs, amendedStop v.data = false) → amendedStop q.data = true →
      parsePartsGo (vs ++ q :: rest) (some (key, vps)) acc =
        parsePartsGo (q :: rest) (some (key, vps ++ vs)) acc) ∧
    parseRowData "data1=Hello, world=1, mimetype=vnd.android.cursor.item/note" =
      [("data1", "Hello"), ("world", "1"), ("mimetype", "vnd.android.cursor.item/note")] :=
  ⟨isNewKeyValue_eq_amendedStop,
    fun key vs vps acc h => parsePartsGo_absorb_all key vs vps acc h,
    fun key q vs rest vps acc h hq => parsePartsGo_absorb_until key vs q rest vps acc h hq,
    by decide⟩

/-- C5 (witness): the absorption theorem applied to one non-stop token
followed by a genuine key=value stop token. -/
theorem claim_C5_witness :
    parsePartsGo ["x", "m=n"] (some ("k", ["v"])) [] =
      parsePartsGo ["m=n"] (some ("k", ["v", "x"])) [] :=
  claim_C5_amended.2.2.1 "k" "m=n" ["x"] [] ["v"] [] (by decide) (by decide)

end ContactsReader